import Mathlib

/-!
Shallow embedding of `jun_kim_trainings.py`.

The core of the program is three report functions over a dataset of person
records plus one shared helper:

* `get_training_count`               (TrainingCountAggregator)
* `get_completed_trainings`          (FiscalYearCompletionFilter)
* `get_most_recent_completions`      (MostRecentCompletionResolver)
* `get_expired_or_expiring_trainings` (ExpiryStatusReporter)

Dates are represented by their proleptic Gregorian ordinal (the number used
by CPython's `datetime.toordinal`, with 01/01/0001 ↦ 1), so that
comparisons of parsed dates and `+ timedelta(days := n)` become `≤`/`<` and
`+ n` on `Nat`.  Fields read with `dict.get` are modelled as `Option`;
Python truthiness of an optional string (`None` and `""` are falsy) is the
function `truthy`.  A Python run that raises an uncaught exception
(a `strptime` failure or a `KeyError` on `person['name']`) is modelled by
the value `none` of the `Option`-returning embeddings.
-/

set_option autoImplicit false

namespace Trainings

/-- Gregorian leap-year test, as in CPython's `datetime`. -/
def isLeap (y : Nat) : Bool :=
  y % 4 == 0 && (y % 100 != 0 || y % 400 == 0)

/-- Number of days in month `m` of year `y` (months are 1-based). -/
def daysInMonth (y m : Nat) : Nat :=
  if m = 2 then (if isLeap y then 29 else 28)
  else if m = 4 ∨ m = 6 ∨ m = 9 ∨ m = 11 then 30
  else 31

/-- Days in a non-leap year strictly before month `m` (1-based). -/
def daysBeforeMonth (m : Nat) : Nat :=
  match m with
  | 1 => 0 | 2 => 31 | 3 => 59 | 4 => 90 | 5 => 120 | 6 => 151
  | 7 => 181 | 8 => 212 | 9 => 243 | 10 => 273 | 11 => 304 | _ => 334

/-- Proleptic Gregorian ordinal of the date `y-m-d` (01/01/0001 ↦ 1),
exactly CPython's `datetime.toordinal`. -/
def toOrdinal (y m d : Nat) : Nat :=
  (y - 1) * 365 + (y - 1) / 4 - (y - 1) / 100 + (y - 1) / 400
    + daysBeforeMonth m + (if 2 < m ∧ isLeap y then 1 else 0) + d

/-- Split a character list at every `'/'` (auxiliary accumulator form). -/
def splitSlashAux : List Char → List Char → List (List Char)
  | [], cur => [cur.reverse]
  | c :: rest, cur =>
    if c = '/' then cur.reverse :: splitSlashAux rest []
    else splitSlashAux rest (c :: cur)

/-- Split a character list at every `'/'`. -/
def splitSlash (l : List Char) : List (List Char) := splitSlashAux l []

/-- Numeric value of a list of decimal digits. -/
def digitsVal (l : List Char) : Nat :=
  l.foldl (fun a c => a * 10 + (c.toNat - 48)) 0

/-- Non-empty list of ASCII decimal digits. -/
def isDigits (l : List Char) : Bool :=
  !l.isEmpty && l.all Char.isDigit

/-- Embedding of `datetime.strptime(s, "%m/%d/%Y")`: three `/`-separated
fields, month and day of one or two digits, year of exactly four digits,
with month in `1..12`, day valid for the month and year at least 1; on
success the parsed date's proleptic Gregorian ordinal, otherwise `none`
(an uncaught `ValueError` in Python). -/
def parseDate (s : String) : Option Nat :=
  match splitSlash s.data with
  | [ms, ds, ys] =>
    if isDigits ms ∧ isDigits ds ∧ isDigits ys
        ∧ ms.length ≤ 2 ∧ ds.length ≤ 2 ∧ ys.length = 4 then
      if 1 ≤ digitsVal ms ∧ digitsVal ms ≤ 12 ∧ 1 ≤ digitsVal ds
          ∧ digitsVal ds ≤ daysInMonth (digitsVal ys) (digitsVal ms)
          ∧ 1 ≤ digitsVal ys then
        some (toOrdinal (digitsVal ys) (digitsVal ms) (digitsVal ds))
      else none
    else none
  | _ => none

/-- Python truthiness of an optional string: `None` and `""` are falsy. -/
def truthy : Option String → Bool
  | none => false
  | some s => !s.data.isEmpty

/-- A completion record: training name, completion timestamp and expiry
are all read with `dict.get`, hence optional. -/
structure Completion where
  name : Option String
  timestamp : Option String
  expires : Option String
deriving DecidableEq

/-- A person record: `name` is read both with `dict.get` (absent allowed)
and with `person['name']` (absent is a `KeyError`); `completions` is read
with `dict.get('completions', [])`. -/
structure Person where
  name : Option String
  completions : Option (List Completion)
deriving DecidableEq

/-- Value stored by `get_most_recent_completions` for one training:
the parsed completion date (as an ordinal) and the raw `expires` field
of the winning completion. -/
structure MRDetails where
  timestamp : Nat
  expires : Option String
deriving DecidableEq

/-- One `{training, status}` entry of the expiry report. -/
structure TrainingStatus where
  training : String
  status : String
deriving DecidableEq

/-- One `{name, trainings}` entry of the expiry report. -/
structure PersonResult where
  name : String
  trainings : List TrainingStatus
deriving DecidableEq

/-- First-match lookup in an insertion-ordered association list
(Python `d[k]` / `k in d`). -/
def alookup {β : Type} : List (String × β) → String → Option β
  | [], _ => none
  | (k', v) :: rest, k => if k' = k then some v else alookup rest k

/-- Python `defaultdict(int)` increment `d[k] += 1`: update the value in
place if the key exists, otherwise append the key with value 1. -/
def incr : List (String × Nat) → String → List (String × Nat)
  | [], k => [(k, 1)]
  | (k', v) :: rest, k =>
    if k' = k then (k', v + 1) :: rest else (k', v) :: incr rest k

/-- Python `d[k].append(v)` on a dict of lists: append `v` to the value at
the (assumed existing) key `k`, leaving the key order unchanged. -/
def alistAppend : List (String × List String) → String → String → List (String × List String)
  | [], _, _ => []
  | (k', vs) :: rest, k, v =>
    if k' = k then (k', vs ++ [v]) :: rest else (k', vs) :: alistAppend rest k v

/-- Python `d[k] = v`: overwrite in place if the key exists (keeping its
insertion position), otherwise append the key. -/
def mrUpdate : List (String × MRDetails) → String → MRDetails → List (String × MRDetails)
  | [], k, v => [(k, v)]
  | (k', v') :: rest, k, v =>
    if k' = k then (k', v) :: rest else (k', v') :: mrUpdate rest k v

/-- Keys of a Python dict comprehension `{t: [] for t in l}` in insertion
order: first occurrence of each element, auxiliary form carrying the set of
keys already seen. -/
def dedupFirstAux (seen : List String) : List String → List String
  | [] => []
  | x :: xs =>
    if x ∈ seen then dedupFirstAux seen xs
    else x :: dedupFirstAux (x :: seen) xs

/-- First-occurrence deduplication of a list of strings. -/
def dedupFirst (l : List String) : List String := dedupFirstAux [] l

/-- Inner loop of `get_training_count` over one person's completions. -/
def countLoopC (acc : List (String × Nat)) : List Completion → List (String × Nat)
  | [] => acc
  | c :: rest =>
    countLoopC (if truthy c.name then incr acc (c.name.getD "") else acc) rest

/-- Outer loop of `get_training_count` over the dataset. -/
def countLoopP (acc : List (String × Nat)) : List Person → List (String × Nat)
  | [] => acc
  | p :: rest => countLoopP (countLoopC acc (p.completions.getD [])) rest

/-- Embedding of `get_training_count` (without the file write): the
insertion-ordered `training_count` mapping. -/
def get_training_count (data : List Person) : List (String × Nat) :=
  countLoopP [] data

/-- Python `training_name in training_results`: membership of the optional
`name` field among the keys of the accumulator dict (`None` is in no
string-keyed dict). -/
def requestedName (acc : List (String × List String)) : Option String → Bool
  | some tn => (alookup acc tn).isSome
  | none => false

/-- Inner loop of `get_completed_trainings` over one person's completions.
`pname` is the person's optional `name` field; `fstart`/`fend` are the
fiscal-window bounds as ordinals.  Membership `training_name in
training_results` is tested against the keys of the accumulator, and
`person['name']` on a missing name is the fatal `none`. -/
def fycLoopC (fstart fend : Nat) (pname : Option String)
    (acc : List (String × List String)) :
    List Completion → Option (List (String × List String))
  | [] => some acc
  | c :: rest =>
    if requestedName acc c.name ∧ truthy c.timestamp then
      match parseDate (c.timestamp.getD "") with
      | none => none
      | some d =>
        if fstart ≤ d ∧ d ≤ fend then
          match pname with
          | none => none
          | some pn => fycLoopC fstart fend pname (alistAppend acc (c.name.getD "") pn) rest
        else fycLoopC fstart fend pname acc rest
    else fycLoopC fstart fend pname acc rest

/-- Outer loop of `get_completed_trainings` over the dataset. -/
def fycLoopP (fstart fend : Nat) (acc : List (String × List String)) :
    List Person → Option (List (String × List String))
  | [] => some acc
  | p :: rest =>
    match fycLoopC fstart fend p.name acc (p.completions.getD []) with
    | none => none
    | some acc' => fycLoopP fstart fend acc' rest

/-- Embedding of `get_completed_trainings` (without the file write).
`datetime(fiscal_year - 1, 7, 1)` and `datetime(fiscal_year, 6, 30)`
require years in `1..9999`, so a fiscal year outside `2..9999` is the
fatal `none`. -/
def get_completed_trainings (data : List Person) (trainings : List String)
    (fiscal_year : Nat) : Option (List (String × List String)) :=
  if fiscal_year < 2 ∨ 9999 < fiscal_year then none
  else
    fycLoopP (toOrdinal (fiscal_year - 1) 7 1) (toOrdinal fiscal_year 6 30)
      ((dedupFirst trainings).map (fun t => (t, ([] : List String)))) data

/-- Loop of `get_most_recent_completions`: skip completions with a falsy
`name` or `timestamp`, parse the timestamp (failure is fatal), and store
the completion under its training name when the key is new or the parsed
date is strictly greater than the stored one. -/
def mrcLoop (acc : List (String × MRDetails)) : List Completion → Option (List (String × MRDetails))
  | [] => some acc
  | c :: rest =>
    if truthy c.name ∧ truthy c.timestamp then
      match parseDate (c.timestamp.getD "") with
      | none => none
      | some d =>
        match alookup acc (c.name.getD "") with
        | none => mrcLoop (mrUpdate acc (c.name.getD "") ⟨d, c.expires⟩) rest
        | some prev =>
          if prev.timestamp < d then
            mrcLoop (mrUpdate acc (c.name.getD "") ⟨d, c.expires⟩) rest
          else mrcLoop acc rest
    else mrcLoop acc rest

/-- Embedding of `get_most_recent_completions`. -/
def get_most_recent_completions (completions : List Completion) :
    Option (List (String × MRDetails)) :=
  mrcLoop [] completions

/-- Inner loop of `get_expired_or_expiring_trainings` over one person's
resolved most-recent completions: skip falsy `expires`, parse the expiry
(failure is fatal), mark `"expired"` when the reference date is strictly
after the expiry, else `"expires soon"` when the expiry is at most 30 days
after the reference date, else skip. -/
def expiryLoop (reference_date : Nat) (acc : List TrainingStatus) :
    List (String × MRDetails) → Option (List TrainingStatus)
  | [] => some acc
  | (tn, details) :: rest =>
    if truthy details.expires then
      match parseDate (details.expires.getD "") with
      | none => none
      | some expiry_date =>
        if reference_date > expiry_date then
          expiryLoop reference_date (acc ++ [⟨tn, "expired"⟩]) rest
        else if expiry_date ≤ reference_date + 30 then
          expiryLoop reference_date (acc ++ [⟨tn, "expires soon"⟩]) rest
        else expiryLoop reference_date acc rest
    else expiryLoop reference_date acc rest

/-- Outer loop of `get_expired_or_expiring_trainings` over the dataset:
resolve each person's most-recent completions, flag them, and append the
person (via the fatal-on-missing `person['name']`) exactly when at least
one training was flagged. -/
def reportLoop (reference_date : Nat) (acc : List PersonResult) :
    List Person → Option (List PersonResult)
  | [] => some acc
  | p :: rest =>
    match get_most_recent_completions (p.completions.getD []) with
    | none => none
    | some mr =>
      match expiryLoop reference_date [] mr with
      | none => none
      | some flagged =>
        if flagged.isEmpty then reportLoop reference_date acc rest
        else
          match p.name with
          | none => none
          | some pn => reportLoop reference_date (acc ++ [⟨pn, flagged⟩]) rest

/-- Embedding of `get_expired_or_expiring_trainings` (without the file
write). -/
def get_expired_or_expiring_trainings (data : List Person) (reference_date : Nat) :
    Option (List PersonResult) :=
  reportLoop reference_date [] data

/-! Specification-side definitions, used to state the claims. -/

/-- Keys of an association list, in order. -/
def keys {β : Type} (l : List (String × β)) : List String := l.map Prod.fst

/-- Sum of the values of an association list of counters. -/
def sumVals (l : List (String × Nat)) : Nat := (l.map Prod.snd).sum

/-- Number of completions in a list carrying the non-empty training name
`tn` (spec §4.2: "every completion with a non-empty `name`"). -/
def countC (tn : String) : List Completion → Nat
  | [] => 0
  | c :: rest => (if truthy c.name ∧ c.name = some tn then 1 else 0) + countC tn rest

/-- Number of completions of training `tn` across the whole dataset. -/
def countData (tn : String) : List Person → Nat
  | [] => 0
  | p :: rest => countC tn (p.completions.getD []) + countData tn rest

/-- Number of completions with a non-empty `name` in a list. -/
def totalC : List Completion → Nat
  | [] => 0
  | c :: rest => (if truthy c.name then 1 else 0) + totalC rest

/-- Total number of completions with a non-empty `name` in the dataset. -/
def totalData : List Person → Nat
  | [] => 0
  | p :: rest => totalC (p.completions.getD []) + totalData rest

/-- Names contributed by a completion list to the fiscal-year list of
training `tn` (spec §4.3): one entry of the person's name (`pname`) per
completion whose `name` is `tn`, whose `timestamp` is present and parses,
and whose parsed date lies in the inclusive window `[fstart, fend]`, in
completion order. -/
def contribC (fstart fend : Nat) (pname : Option String) (tn : String)
    (cs : List Completion) : List String :=
  cs.filterMap (fun c =>
    match c.timestamp with
    | none => none
    | some ts =>
      match parseDate ts with
      | none => none
      | some d =>
        if c.name = some tn ∧ fstart ≤ d ∧ d ≤ fend then some (pname.getD "")
        else none)

/-- Names contributed by one person to the fiscal-year list of training
`tn`. -/
def contribFor (fstart fend : Nat) (tn : String) (p : Person) : List String :=
  contribC fstart fend p.name tn (p.completions.getD [])

/-- Full fiscal-year list for training `tn`: the persons' contributions in
dataset order. -/
def completedFor (fstart fend : Nat) (tn : String) : List Person → List String
  | [] => []
  | p :: rest => contribFor fstart fend tn p ++ completedFor fstart fend tn rest

/-- Extend every value of an association list by a key-dependent suffix. -/
def extendAll (acc : List (String × List String)) (f : String → List String) :
    List (String × List String) :=
  acc.map (fun p => (p.1, p.2 ++ f p.1))

/-- The candidate completions the resolver considers for training `tn`
(spec §4.1): completions with truthy `name` and `timestamp` named `tn`,
reduced to their parsed timestamp and raw `expires`, in list order.
Completions whose timestamp fails to parse do not reach a decision (the
resolver aborts instead), so they carry no entry here. -/
def winnersFor (tn : String) (cs : List Completion) : List (Nat × Option String) :=
  cs.filterMap (fun c =>
    if truthy c.name ∧ truthy c.timestamp ∧ c.name = some tn then
      (parseDate (c.timestamp.getD "")).map (fun d => (d, c.expires))
    else none)

/-- One comparison step of the resolver: a new candidate replaces the
current best exactly when its parsed timestamp is strictly greater. -/
def bestStep (b : Option MRDetails) (w : Nat × Option String) : Option MRDetails :=
  match b with
  | none => some ⟨w.1, w.2⟩
  | some prev => if prev.timestamp < w.1 then some ⟨w.1, w.2⟩ else some prev

/-- Fold of `bestStep` over a candidate list. -/
def bestFrom (b : Option MRDetails) : List (Nat × Option String) → Option MRDetails
  | [] => b
  | w :: ws => bestFrom (bestStep b w) ws

/-- Flagged trainings of one person per spec §4.4 steps 2–4: walk the
resolved most-recent completions in order, skip an absent `expires`,
otherwise parse it and report `"expired"` when the reference date is
strictly after the expiry, else `"expires soon"` when the expiry is at
most 30 days after the reference date, else nothing. -/
def flaggedSpec (ref : Nat) (mr : List (String × MRDetails)) : List TrainingStatus :=
  mr.filterMap (fun p =>
    match p.2.expires with
    | none => none
    | some es =>
      match parseDate es with
      | none => none
      | some e =>
        if ref > e then some ⟨p.1, "expired"⟩
        else if e ≤ ref + 30 then some ⟨p.1, "expires soon"⟩
        else none)

/-- Expiry report per spec §4.4: for each person in dataset order, resolve
the most-recent completions, flag them, and keep `{name, trainings}`
exactly when at least one training was flagged. -/
def reportSpec (ref : Nat) (data : List Person) : List PersonResult :=
  data.filterMap (fun p =>
    match get_most_recent_completions (p.completions.getD []) with
    | none => none
    | some mr =>
      if (flaggedSpec ref mr).isEmpty then none
      else some ⟨p.name.getD "", flaggedSpec ref mr⟩)

/-- Well-formed completion per spec §3's invariant: date strings, when
present, parse under `MM/DD/YYYY`. -/
def WFCompletion (c : Completion) : Bool :=
  c.timestamp.all (fun ts => (parseDate ts).isSome) &&
  c.expires.all (fun es => (parseDate es).isSome)

/-- Well-formed person: a present `name` and well-formed completions. -/
def WFPerson (p : Person) : Bool :=
  p.name.isSome && (p.completions.getD []).all WFCompletion

/-- Well-formed dataset. -/
def WFData (data : List Person) : Bool := data.all WFPerson

/-! Basic lemmas about parsing and truthiness. -/

theorem parseDate_data_ne_nil {s : String} {d : Nat} (h : parseDate s = some d) :
    s.data ≠ [] := by
  intro hnil
  rw [parseDate, hnil] at h
  simp [splitSlash, splitSlashAux] at h

theorem truthy_of_parse {s : String} {d : Nat} (h : parseDate s = some d) :
    truthy (some s) = true := by
  have hne := parseDate_data_ne_nil h
  cases hd : s.data with
  | nil => exact absurd hd hne
  | cons c l => simp [truthy, hd]

theorem truthy_some_iff {s : String} : truthy (some s) = true ↔ s.data ≠ [] := by
  cases hd : s.data with
  | nil => simp [truthy, hd]
  | cons c l => simp [truthy, hd]

/-! Lemmas about the association-list operations. -/

@[simp] theorem alookup_nil {β : Type} (k : String) :
    alookup ([] : List (String × β)) k = none := rfl

theorem alookup_mrUpdate_self (l : List (String × MRDetails)) (k : String) (v : MRDetails) :
    alookup (mrUpdate l k v) k = some v := by
  induction l with
  | nil => simp [mrUpdate, alookup]
  | cons p rest ih =>
    obtain ⟨k', v'⟩ := p
    by_cases h : k' = k
    · simp [mrUpdate, alookup, h]
    · simp [mrUpdate, alookup, h, ih]

theorem alookup_mrUpdate_ne (l : List (String × MRDetails)) {k k' : String}
    (h : k ≠ k') (v : MRDetails) :
    alookup (mrUpdate l k v) k' = alookup l k' := by
  induction l with
  | nil => simp [mrUpdate, alookup, h]
  | cons p rest ih =>
    obtain ⟨k₀, v₀⟩ := p
    by_cases h₀ : k₀ = k
    · subst h₀; simp [mrUpdate, alookup, h]
    · simp [mrUpdate, alookup, h₀, ih]

theorem mem_mrUpdate {p : String × MRDetails} {l : List (String × MRDetails)}
    {k : String} {v : MRDetails} (h : p ∈ mrUpdate l k v) :
    p = (k, v) ∨ p ∈ l := by
  induction l with
  | nil => simp [mrUpdate] at h; simp [h]
  | cons q rest ih =>
    obtain ⟨k₀, v₀⟩ := q
    by_cases h₀ : k₀ = k
    · rw [mrUpdate, if_pos h₀] at h
      rcases List.mem_cons.mp h with h1 | h1
      · left; rw [h1, h₀]
      · right; exact List.mem_cons_of_mem _ h1
    · rw [mrUpdate, if_neg h₀] at h
      rcases List.mem_cons.mp h with h1 | h1
      · right; rw [h1]; exact List.mem_cons_self _ _
      · rcases ih h1 with h2 | h2
        · exact Or.inl h2
        · exact Or.inr (List.mem_cons_of_mem _ h2)

theorem alookup_incr_self (l : List (String × Nat)) (k : String) :
    alookup (incr l k) k = some ((alookup l k).getD 0 + 1) := by
  induction l with
  | nil => simp [incr, alookup]
  | cons p rest ih =>
    obtain ⟨k', v⟩ := p
    by_cases h : k' = k
    · simp [incr, alookup, h]
    · simp [incr, alookup, h, ih]

theorem alookup_incr_ne (l : List (String × Nat)) {k k' : String} (h : k ≠ k') :
    alookup (incr l k) k' = alookup l k' := by
  induction l with
  | nil => simp [incr, alookup, h]
  | cons p rest ih =>
    obtain ⟨k₀, v₀⟩ := p
    by_cases h₀ : k₀ = k
    · subst h₀; simp [incr, alookup, h]
    · simp [incr, alookup, h₀, ih]

theorem sumVals_incr (l : List (String × Nat)) (k : String) :
    sumVals (incr l k) = sumVals l + 1 := by
  induction l with
  | nil => simp [incr, sumVals]
  | cons p rest ih =>
    obtain ⟨k', v⟩ := p
    by_cases h : k' = k
    · simp [incr, sumVals, h]; omega
    · simp only [incr, if_neg h, sumVals, List.map_cons, List.sum_cons] at *
      omega

/-! Lemmas about `get_training_count`. -/

theorem countLoopC_getD (cs : List Completion) :
    ∀ (acc : List (String × Nat)) (tn : String),
      (alookup (countLoopC acc cs) tn).getD 0
        = (alookup acc tn).getD 0 + countC tn cs := by
  induction cs with
  | nil => intro acc tn; simp [countLoopC, countC]
  | cons c rest ih =>
    intro acc tn
    rw [countLoopC, countC]
    cases hcn : c.name with
    | none => simp [truthy, hcn, ih]
    | some s =>
      cases htr : truthy (some s) with
      | false => simp [hcn, htr, ih]
      | true =>
        by_cases hk : s = tn
        · subst hk
          have h1 := alookup_incr_self acc s
          simp [hcn, htr, ih, h1]
          omega
        · have h1 := alookup_incr_ne acc hk
          simp [hcn, htr, ih, hk, h1]

theorem countLoopC_isSome (cs : List Completion) :
    ∀ (acc : List (String × Nat)) (tn : String),
      (alookup (countLoopC acc cs) tn).isSome = true
        ↔ ((alookup acc tn).isSome = true ∨ countC tn cs ≠ 0) := by
  induction cs with
  | nil => intro acc tn; simp [countLoopC, countC]
  | cons c rest ih =>
    intro acc tn
    rw [countLoopC, countC]
    cases hcn : c.name with
    | none => simp [truthy, hcn, ih]
    | some s =>
      cases htr : truthy (some s) with
      | false => simp [hcn, htr, ih]
      | true =>
        by_cases hk : s = tn
        · subst hk
          have h1 := alookup_incr_self acc s
          simp [hcn, htr, ih, h1]
        · have h1 := alookup_incr_ne acc hk
          simp [hcn, htr, ih, hk, h1]

theorem countLoopC_sumVals (cs : List Completion) :
    ∀ acc : List (String × Nat),
      sumVals (countLoopC acc cs) = sumVals acc + totalC cs := by
  induction cs with
  | nil => intro acc; simp [countLoopC, totalC]
  | cons c rest ih =>
    intro acc
    rw [countLoopC, totalC]
    cases htr : truthy c.name with
    | false => simp [htr, ih]
    | true =>
      rw [if_pos rfl, if_pos rfl, ih, sumVals_incr]
      omega

theorem countLoopP_getD (data : List Person) :
    ∀ (acc : List (String × Nat)) (tn : String),
      (alookup (countLoopP acc data) tn).getD 0
        = (alookup acc tn).getD 0 + countData tn data := by
  induction data with
  | nil => intro acc tn; simp [countLoopP, countData]
  | cons p rest ih =>
    intro acc tn
    rw [countLoopP, countData, ih, countLoopC_getD]
    omega

theorem countLoopP_isSome (data : List Person) :
    ∀ (acc : List (String × Nat)) (tn : String),
      (alookup (countLoopP acc data) tn).isSome = true
        ↔ ((alookup acc tn).isSome = true ∨ countData tn data ≠ 0) := by
  induction data with
  | nil => intro acc tn; simp [countLoopP, countData]
  | cons p rest ih =>
    intro acc tn
    rw [countLoopP, countData, ih, countLoopC_isSome]
    by_cases hs : (alookup acc tn).isSome = true
    · simp [hs]
    · simp [hs]
      omega

theorem countLoopP_sumVals (data : List Person) :
    ∀ acc : List (String × Nat),
      sumVals (countLoopP acc data) = sumVals acc + totalData data := by
  induction data with
  | nil => intro acc; simp [countLoopP, totalData]
  | cons p rest ih =>
    intro acc
    rw [countLoopP, totalData, ih, countLoopC_sumVals]
    omega

/-- C4: `get_training_count` maps each training name to the number of
completions across all people carrying that non-empty `name`, has no
key for a training with zero such completions, and the sum of its values
equals the total number of completions with a non-empty `name`. -/
theorem training_count_spec (data : List Person) :
    (∀ tn : String,
      alookup (get_training_count data) tn
        = if countData tn data = 0 then none else some (countData tn data))
    ∧ sumVals (get_training_count data) = totalData data := by
  constructor
  · intro tn
    have hg := countLoopP_getD data [] tn
    have hs := countLoopP_isSome data [] tn
    rw [get_training_count]
    by_cases h0 : countData tn data = 0
    · rw [if_pos h0]
      rcases ho : alookup (countLoopP [] data) tn with _ | v
      · rfl
      · exfalso
        have : (alookup (countLoopP [] data) tn).isSome = true := by
          rw [ho]; rfl
        rcases hs.mp this with h | h
        · simp [alookup] at h
        · exact h h0
    · rw [if_neg h0]
      have : (alookup (countLoopP [] data) tn).isSome = true :=
        hs.mpr (Or.inr h0)
      rcases ho : alookup (countLoopP [] data) tn with _ | v
      · rw [ho] at this; exact absurd this (by simp)
      · rw [ho] at hg
        simp only [alookup_nil, Option.getD_none, Option.getD_some, Nat.zero_add] at hg
        rw [hg]
  · have := countLoopP_sumVals data []
    rw [get_training_count, this]
    simp [sumVals]

/-! Lemmas about keys, `extendAll` and `alistAppend`. -/

theorem parseDate_isSome_data {s : String} (h : (parseDate s).isSome = true) :
    s.data ≠ [] := by
  intro hnil
  rcases Option.isSome_iff_exists.mp h with ⟨d, hd⟩
  exact parseDate_data_ne_nil hd hnil

theorem timestamp_none_of_not_truthy {c : Completion} (hwf : WFCompletion c = true)
    (h : truthy c.timestamp = false) : c.timestamp = none := by
  cases hts : c.timestamp with
  | none => rfl
  | some s =>
    exfalso
    rw [WFCompletion, hts, Bool.and_eq_true] at hwf
    have hp : (parseDate s).isSome = true := by simpa using hwf.1
    rw [hts] at h
    rcases hd : s.data with _ | ⟨a, l⟩
    · exact parseDate_isSome_data hp hd
    · rw [truthy, hd] at h
      simp at h

theorem alookup_isSome_iff_mem_keys {β : Type} (l : List (String × β)) (k : String) :
    (alookup l k).isSome = true ↔ k ∈ keys l := by
  induction l with
  | nil => simp [keys]
  | cons p rest ih =>
    obtain ⟨k₀, v₀⟩ := p
    by_cases h : k₀ = k
    · subst h; simp [alookup, keys]
    · simp [alookup, h, keys, ih, Ne.symm h]

theorem keys_alistAppend (l : List (String × List String)) (k v : String) :
    keys (alistAppend l k v) = keys l := by
  induction l with
  | nil => simp [alistAppend]
  | cons p rest ih =>
    obtain ⟨k₀, vs⟩ := p
    by_cases h : k₀ = k
    · simp [alistAppend, h, keys]
    · simp only [alistAppend, if_neg h]
      simp only [keys, List.map_cons] at ih ⊢
      rw [ih]

theorem keys_extendAll (acc : List (String × List String)) (f : String → List String) :
    keys (extendAll acc f) = keys acc := by
  simp [keys, extendAll, List.map_map]

theorem extendAll_congr {acc : List (String × List String)} {f g : String → List String}
    (h : ∀ p ∈ acc, f p.1 = g p.1) : extendAll acc f = extendAll acc g := by
  induction acc with
  | nil => rfl
  | cons p rest ih =>
    have h1 := h p (List.mem_cons_self _ _)
    have h2 := ih (fun q hq => h q (List.mem_cons_of_mem _ hq))
    simp only [extendAll, List.map_cons] at h2 ⊢
    rw [h1, h2]

theorem extendAll_nilfun {acc : List (String × List String)} {f : String → List String}
    (h : ∀ p ∈ acc, f p.1 = []) : extendAll acc f = acc := by
  induction acc with
  | nil => rfl
  | cons p rest ih =>
    have h1 := h p (List.mem_cons_self _ _)
    have h2 := ih (fun q hq => h q (List.mem_cons_of_mem _ hq))
    simp only [extendAll, List.map_cons] at h2 ⊢
    rw [h1, List.append_nil, h2]

theorem extendAll_comp (acc : List (String × List String)) (f g : String → List String) :
    extendAll (extendAll acc f) g = extendAll acc (fun t => f t ++ g t) := by
  induction acc with
  | nil => rfl
  | cons p rest ih =>
    simp only [extendAll, List.map_cons] at ih ⊢
    rw [List.append_assoc, ih]

theorem alistAppend_eq_extendAll {acc : List (String × List String)} {k : String}
    (hnd : (keys acc).Nodup) (hk : (alookup acc k).isSome = true) (v : String) :
    alistAppend acc k v = extendAll acc (fun t => if t = k then [v] else []) := by
  induction acc with
  | nil => simp at hk
  | cons p rest ih =>
    obtain ⟨k₀, vs⟩ := p
    rw [keys, List.map_cons, List.nodup_cons] at hnd
    by_cases h : k₀ = k
    · subst h
      have hrest : extendAll rest (fun t => if t = k₀ then [v] else []) = rest := by
        apply extendAll_nilfun
        intro q hq
        have hne : q.1 ≠ k₀ := by
          intro he
          exact hnd.1 (he ▸ (List.mem_map.mpr ⟨q, hq, rfl⟩))
        rw [if_neg hne]
      rw [extendAll] at hrest
      rw [alistAppend, if_pos rfl]
      simp [extendAll, hrest]
    · rw [alookup, if_neg h] at hk
      have hih := ih hnd.2 hk
      rw [extendAll] at hih
      rw [alistAppend, if_neg h]
      simp [extendAll, h, hih]

/-! Lemmas about `dedupFirst`. -/

theorem dedupFirstAux_of_nodup :
    ∀ (l : List String) (seen : List String), l.Nodup → (∀ x ∈ l, x ∉ seen) →
      dedupFirstAux seen l = l := by
  intro l
  induction l with
  | nil => intro seen _ _; rfl
  | cons x xs ih =>
    intro seen hnd hdisj
    rw [List.nodup_cons] at hnd
    rw [dedupFirstAux, if_neg (hdisj x (List.mem_cons_self _ _))]
    rw [ih (x :: seen) hnd.2]
    intro y hy
    rw [List.mem_cons]
    rintro (h | h)
    · exact hnd.1 (h ▸ hy)
    · exact hdisj y (List.mem_cons_of_mem _ hy) h

theorem dedupFirst_of_nodup {l : List String} (h : l.Nodup) : dedupFirst l = l :=
  dedupFirstAux_of_nodup l [] h (by simp)

/-! The inner and outer loops of `get_completed_trainings`. -/

theorem fycLoopC_spec (fstart fend : Nat) (pname : Option String) :
    ∀ (cs : List Completion) (acc : List (String × List String)),
      (keys acc).Nodup →
      (∀ c ∈ cs, WFCompletion c = true) →
      pname.isSome = true →
      fycLoopC fstart fend pname acc cs
        = some (extendAll acc (fun t => contribC fstart fend pname t cs)) := by
  intro cs
  induction cs with
  | nil =>
    intro acc _ _ _
    simp only [fycLoopC]
    rw [extendAll_nilfun (fun p _ => rfl)]
  | cons c rest ih =>
    intro acc hnd hwf hpn
    have hwfc : WFCompletion c = true := hwf c (List.mem_cons_self _ _)
    have hwfr : ∀ c' ∈ rest, WFCompletion c' = true :=
      fun c' hc' => hwf c' (List.mem_cons_of_mem _ hc')
    simp only [fycLoopC]
    by_cases hreq : requestedName acc c.name = true
    · by_cases htt : truthy c.timestamp = true
      · rw [if_pos ⟨hreq, htt⟩]
        obtain ⟨s, hts⟩ : ∃ s, c.timestamp = some s := by
          rcases h : c.timestamp with _ | s
          · rw [h] at htt; simp [truthy] at htt
          · exact ⟨s, rfl⟩
        have hps : (parseDate s).isSome = true := by
          rw [WFCompletion, hts, Bool.and_eq_true] at hwfc
          simpa using hwfc.1
        obtain ⟨d, hpd⟩ := Option.isSome_iff_exists.mp hps
        obtain ⟨tn, hcn⟩ : ∃ tn, c.name = some tn := by
          rcases h : c.name with _ | tn
          · rw [h, requestedName] at hreq; simp at hreq
          · exact ⟨tn, rfl⟩
        simp only [hts, Option.getD_some, hpd]
        by_cases hwin : fstart ≤ d ∧ d ≤ fend
        · rw [if_pos hwin]
          obtain ⟨pn, hpname⟩ := Option.isSome_iff_exists.mp hpn
          have hkey : (alookup acc tn).isSome = true := by
            rw [hcn] at hreq
            simpa [requestedName] using hreq
          have hnd' : (keys (alistAppend acc tn pn)).Nodup := by
            rw [keys_alistAppend]; exact hnd
          simp only [hpname, hcn, Option.getD_some]
          rw [hpname] at ih hpn
          rw [ih _ hnd' hwfr hpn]
          rw [alistAppend_eq_extendAll hnd hkey pn, extendAll_comp]
          congr 1
          apply extendAll_congr
          intro p _
          by_cases hp : tn = p.1
          · subst hp
            simp [contribC, List.filterMap_cons, hts, hpd, hcn, hwin, hpname]
          · simp [contribC, List.filterMap_cons, hts, hpd, hcn, hp, Ne.symm hp]
        · rw [if_neg hwin]
          rw [ih _ hnd hwfr hpn]
          congr 1
          apply extendAll_congr
          intro p _
          simp [contribC, List.filterMap_cons, hts, hpd, hcn, hwin]
      · rw [if_neg (fun hand => htt hand.2)]
        have htn : c.timestamp = none :=
          timestamp_none_of_not_truthy hwfc (Bool.eq_false_iff.mpr htt)
        rw [ih _ hnd hwfr hpn]
        congr 1
        apply extendAll_congr
        intro p _
        simp [contribC, List.filterMap_cons, htn]
    · rw [if_neg (fun hand => hreq hand.1)]
      rw [ih _ hnd hwfr hpn]
      congr 1
      apply extendAll_congr
      intro p hp
      have hpk : (alookup acc p.1).isSome = true :=
        (alookup_isSome_iff_mem_keys acc p.1).mpr (List.mem_map.mpr ⟨p, hp, rfl⟩)
      have hstep : ¬(c.name = some p.1) := by
        intro he
        apply hreq
        rw [he]
        simpa [requestedName] using hpk
      rcases hts2 : c.timestamp with _ | ts
      · simp [contribC, List.filterMap_cons, hts2]
      · rcases hpd2 : parseDate ts with _ | d2
        · simp [contribC, List.filterMap_cons, hts2, hpd2]
        · simp [contribC, List.filterMap_cons, hts2, hpd2, hstep]

theorem fycLoopP_spec (fstart fend : Nat) :
    ∀ (data : List Person) (acc : List (String × List String)),
      (keys acc).Nodup →
      (∀ p ∈ data, WFPerson p = true) →
      fycLoopP fstart fend acc data
        = some (extendAll acc (fun t => completedFor fstart fend t data)) := by
  intro data
  induction data with
  | nil =>
    intro acc _ _
    simp only [fycLoopP]
    rw [extendAll_nilfun (fun p _ => rfl)]
  | cons p rest ih =>
    intro acc hnd hwf
    have hwfp : WFPerson p = true := hwf p (List.mem_cons_self _ _)
    rw [WFPerson, Bool.and_eq_true, List.all_eq_true] at hwfp
    have hC := fycLoopC_spec fstart fend p.name (p.completions.getD []) acc hnd
      (fun c hc => hwfp.2 c hc) hwfp.1
    have hP := ih (extendAll acc (fun t => contribC fstart fend p.name t (p.completions.getD [])))
      (by rw [keys_extendAll]; exact hnd)
      (fun q hq => hwf q (List.mem_cons_of_mem _ hq))
    simp only [fycLoopP, hC, hP, extendAll_comp]
    rfl

theorem keys_of_init (trainings : List String) :
    keys (trainings.map fun t => (t, ([] : List String))) = trainings := by
  induction trainings with
  | nil => rfl
  | cons t rest ih =>
    simp only [keys, List.map_cons] at ih ⊢
    rw [ih]

/-- C2: for distinct requested training names, a fiscal year Python's
`datetime` accepts, and a well-formed dataset, `get_completed_trainings`
returns the mapping whose keys are exactly the requested names in the
order given (each present even with no completions), and whose value for
each training is the persons' names, in input iteration order, one per
completion of that training whose timestamp is present, parses, and lies
in the inclusive window from July 1 of `fiscal_year - 1` to June 30 of
`fiscal_year`. -/
theorem completed_trainings_spec (data : List Person) (trainings : List String)
    (fiscal_year : Nat) (hnd : trainings.Nodup) (hlo : 2 ≤ fiscal_year)
    (hhi : fiscal_year ≤ 9999) (hwf : WFData data = true) :
    get_completed_trainings data trainings fiscal_year
      = some (trainings.map (fun t =>
          (t, completedFor (toOrdinal (fiscal_year - 1) 7 1)
                (toOrdinal fiscal_year 6 30) t data))) := by
  rw [get_completed_trainings, if_neg (by omega)]
  rw [dedupFirst_of_nodup hnd]
  rw [WFData, List.all_eq_true] at hwf
  have hknd : (keys (trainings.map fun t => (t, ([] : List String)))).Nodup := by
    rw [keys_of_init]; exact hnd
  rw [fycLoopP_spec _ _ data _ hknd hwf]
  congr 1
  simp [extendAll, List.map_map]

theorem contribC_replicate (fs fe : Nat) (pn tn ts : String) (k d : Nat)
    (hparse : parseDate ts = some d) (hwin : fs ≤ d ∧ d ≤ fe) :
    contribC fs fe (some pn) tn (List.replicate k ⟨some tn, some ts, none⟩)
      = List.replicate k pn := by
  induction k with
  | zero => rfl
  | succ n ih =>
    rw [List.replicate_succ]
    have hstep : contribC fs fe (some pn) tn
        (⟨some tn, some ts, none⟩ :: List.replicate n ⟨some tn, some ts, none⟩)
        = pn :: contribC fs fe (some pn) tn (List.replicate n ⟨some tn, some ts, none⟩) := by
      simp [contribC, List.filterMap_cons, hparse, hwin.1, hwin.2]
    rw [hstep, ih, List.replicate_succ]

/-- C6: `get_completed_trainings` deduplicates nothing: a person with `k`
completions of the same requested training inside the fiscal window
appears `k` times in that training's list. -/
theorem completed_trainings_no_dedup (k : Nat) (pn tn ts : String)
    (fiscal_year d : Nat) (hlo : 2 ≤ fiscal_year) (hhi : fiscal_year ≤ 9999)
    (hparse : parseDate ts = some d)
    (hwin : toOrdinal (fiscal_year - 1) 7 1 ≤ d ∧ d ≤ toOrdinal fiscal_year 6 30) :
    get_completed_trainings
        [⟨some pn, some (List.replicate k ⟨some tn, some ts, none⟩)⟩] [tn] fiscal_year
      = some [(tn, List.replicate k pn)] := by
  rw [get_completed_trainings, if_neg (by omega)]
  rw [show dedupFirst [tn] = [tn] from dedupFirst_of_nodup (by simp)]
  have hwf1 : ∀ p ∈ [(⟨some pn, some (List.replicate k ⟨some tn, some ts, none⟩)⟩ : Person)],
      WFPerson p = true := by
    intro p hp
    rw [List.mem_singleton] at hp
    subst hp
    rw [WFPerson]
    simp only [Option.isSome_some, Bool.true_and, Option.getD_some]
    rw [List.all_eq_true]
    intro c hc
    rw [List.eq_of_mem_replicate hc]
    simp [WFCompletion, hparse]
  have hknd : (keys ([tn].map fun t => (t, ([] : List String)))).Nodup := by
    rw [keys_of_init]; simp
  rw [fycLoopP_spec _ _ _ _ hknd hwf1]
  simp only [List.map_cons, List.map_nil, extendAll]
  rw [completedFor, completedFor, contribFor]
  simp only [Option.getD_some]
  rw [contribC_replicate _ _ _ _ _ _ _ hparse hwin]
  simp

/-! Lemmas about `get_most_recent_completions`. -/

theorem truthy_exists {o : Option String} (h : truthy o = true) : ∃ s, o = some s := by
  cases o with
  | none => simp [truthy] at h
  | some s => exact ⟨s, rfl⟩

theorem winnersFor_cons_neg {tn : String} {c : Completion} (rest : List Completion)
    (h : ¬(truthy c.name = true ∧ truthy c.timestamp = true ∧ c.name = some tn)) :
    winnersFor tn (c :: rest) = winnersFor tn rest := by
  rw [winnersFor, List.filterMap_cons, if_neg h]
  rfl

theorem winnersFor_cons_pos {tn : String} {c : Completion} {d : Nat} (rest : List Completion)
    (hn : truthy c.name = true) (ht : truthy c.timestamp = true) (hcn : c.name = some tn)
    (hpd : parseDate (c.timestamp.getD "") = some d) :
    winnersFor tn (c :: rest) = (d, c.expires) :: winnersFor tn rest := by
  rw [winnersFor, List.filterMap_cons, if_pos ⟨hn, ht, hcn⟩, hpd]
  rfl

theorem mrcLoop_alookup :
    ∀ (cs : List Completion) (acc r : List (String × MRDetails)),
      mrcLoop acc cs = some r →
      ∀ tn : String, alookup r tn = bestFrom (alookup acc tn) (winnersFor tn cs) := by
  intro cs
  induction cs with
  | nil =>
    intro acc r h tn
    simp only [mrcLoop] at h
    rw [← Option.some.inj h]
    rfl
  | cons c rest ih =>
    intro acc r h tn
    simp only [mrcLoop] at h
    by_cases hcond : truthy c.name = true ∧ truthy c.timestamp = true
    · rw [if_pos hcond] at h
      obtain ⟨s, hts⟩ := truthy_exists hcond.2
      simp only [hts, Option.getD_some] at h
      rcases hpd : parseDate s with _ | d
      · simp only [hpd] at h
        exact absurd h (by simp)
      · simp only [hpd] at h
        obtain ⟨nm, hcn⟩ := truthy_exists hcond.1
        simp only [hcn, Option.getD_some] at h
        have hpd' : parseDate (c.timestamp.getD "") = some d := by
          rw [hts]; exact hpd
        by_cases htn : nm = tn
        · subst htn
          rw [winnersFor_cons_pos rest hcond.1 hcond.2 hcn hpd']
          rw [bestFrom]
          rcases hl : alookup acc nm with _ | prev
          · simp only [hl] at h
            rw [ih _ r h nm]
            rw [alookup_mrUpdate_self]
            rfl
          · simp only [hl] at h
            by_cases hlt : prev.timestamp < d
            · rw [if_pos hlt] at h
              rw [ih _ r h nm]
              rw [alookup_mrUpdate_self]
              simp [bestStep, hlt]
            · rw [if_neg hlt] at h
              rw [ih _ r h nm]
              simp [bestStep, hlt, hl]
        · rw [winnersFor_cons_neg rest
            (fun hand => htn (Option.some.inj (hcn.symm.trans hand.2.2)))]
          rcases hl : alookup acc nm with _ | prev
          · simp only [hl] at h
            rw [ih _ r h tn]
            rw [alookup_mrUpdate_ne acc htn]
          · simp only [hl] at h
            by_cases hlt : prev.timestamp < d
            · rw [if_pos hlt] at h
              rw [ih _ r h tn]
              rw [alookup_mrUpdate_ne acc htn]
            · rw [if_neg hlt] at h
              exact ih _ r h tn
    · rw [if_neg hcond] at h
      rw [winnersFor_cons_neg rest (fun hand => hcond ⟨hand.1, hand.2.1⟩)]
      exact ih _ r h tn

theorem mrcLoop_eq_none_iff :
    ∀ (cs : List Completion) (acc : List (String × MRDetails)),
      mrcLoop acc cs = none
        ↔ ∃ c ∈ cs, truthy c.name = true ∧ truthy c.timestamp = true
            ∧ parseDate (c.timestamp.getD "") = none := by
  intro cs
  induction cs with
  | nil => intro acc; simp [mrcLoop]
  | cons c rest ih =>
    intro acc
    simp only [mrcLoop]
    by_cases hcond : truthy c.name = true ∧ truthy c.timestamp = true
    · rw [if_pos hcond]
      rcases hpd : parseDate (c.timestamp.getD "") with _ | d
      · constructor
        · intro _
          exact ⟨c, List.mem_cons_self _ _, hcond.1, hcond.2, hpd⟩
        · intro _
          rfl
      · have hcons : ∀ acc' : List (String × MRDetails),
            mrcLoop acc' rest = none
              ↔ ∃ c' ∈ c :: rest, truthy c'.name = true ∧ truthy c'.timestamp = true
                  ∧ parseDate (c'.timestamp.getD "") = none := by
          intro acc'
          rw [ih acc']
          constructor
          · rintro ⟨c', hc', hp⟩
            exact ⟨c', List.mem_cons_of_mem _ hc', hp⟩
          · rintro ⟨c', hc', h1, h2, h3⟩
            rcases List.mem_cons.mp hc' with h4 | h4
            · subst h4; rw [hpd] at h3; exact absurd h3 (by simp)
            · exact ⟨c', h4, h1, h2, h3⟩
        dsimp only
        rcases hl : alookup acc (c.name.getD "") with _ | prev
        · exact hcons _
        · dsimp only
          by_cases hlt : prev.timestamp < d
          · rw [if_pos hlt]
            exact hcons _
          · rw [if_neg hlt]
            exact hcons _
    · rw [if_neg hcond, ih]
      constructor
      · rintro ⟨c', hc', hp⟩
        exact ⟨c', List.mem_cons_of_mem _ hc', hp⟩
      · rintro ⟨c', hc', h1, h2, h3⟩
        rcases List.mem_cons.mp hc' with h4 | h4
        · subst h4; exact absurd ⟨h1, h2⟩ hcond
        · exact ⟨c', h4, h1, h2, h3⟩

theorem bestFrom_ne_none : ∀ (ws : List (Nat × Option String)) (b : MRDetails),
    bestFrom (some b) ws ≠ none := by
  intro ws
  induction ws with
  | nil => intro b h; exact Option.noConfusion h
  | cons w ws ih =>
    intro b
    rw [bestFrom]
    simp only [bestStep]
    by_cases hlt : b.timestamp < w.1
    · rw [if_pos hlt]; exact ih _
    · rw [if_neg hlt]; exact ih _

theorem bestFrom_none_iff (ws : List (Nat × Option String)) :
    bestFrom none ws = none ↔ ws = [] := by
  cases ws with
  | nil => simp [bestFrom]
  | cons w ws =>
    constructor
    · intro h
      rw [bestFrom] at h
      simp only [bestStep] at h
      exact absurd h (bestFrom_ne_none ws ⟨w.1, w.2⟩)
    · intro h
      exact absurd h (List.cons_ne_nil w ws)

theorem bestFrom_split :
    ∀ (ws : List (Nat × Option String)) (b : Option MRDetails) (det : MRDetails),
      bestFrom b ws = some det ↔
        ((b = some det ∧ ∀ w ∈ ws, w.1 ≤ det.timestamp)
          ∨ (∃ pre w suf, ws = pre ++ w :: suf ∧ det = ⟨w.1, w.2⟩
              ∧ (∀ prev, b = some prev → prev.timestamp < w.1)
              ∧ (∀ w' ∈ pre, w'.1 < w.1) ∧ (∀ w' ∈ suf, w'.1 ≤ w.1))) := by
  intro ws
  induction ws with
  | nil =>
    intro b det
    rw [bestFrom]
    constructor
    · intro h
      exact Or.inl ⟨h, fun w hw => absurd hw (List.not_mem_nil w)⟩
    · rintro (⟨h, _⟩ | ⟨pre, w, suf, habs, _⟩)
      · exact h
      · exact absurd habs (by simp)
  | cons x ws ih =>
    intro b det
    rw [bestFrom, ih]
    rcases b with _ | p
    · have hbs : bestStep none x = some ⟨x.1, x.2⟩ := rfl
      rw [hbs]
      constructor
      · rintro (⟨hdet, hbound⟩ | ⟨pre, w, suf, hsplit, hdet, hb, hpre, hsuf⟩)
        · have hd : det = ⟨x.1, x.2⟩ := (Option.some.inj hdet).symm
          subst hd
          exact Or.inr ⟨[], x, ws, rfl, rfl,
            fun prev hp => absurd hp (by simp), by simp, hbound⟩
        · refine Or.inr ⟨x :: pre, w, suf, by rw [hsplit, List.cons_append], hdet,
            fun prev hp => absurd hp (by simp), ?_, hsuf⟩
          intro w' hw'
          rcases List.mem_cons.mp hw' with h1 | h1
          · rw [h1]
            exact hb ⟨x.1, x.2⟩ rfl
          · exact hpre w' h1
      · rintro (⟨hdet, hbound⟩ | ⟨pre, w, suf, hsplit, hdet, hb, hpre, hsuf⟩)
        · exact absurd hdet (by simp)
        · subst hdet
          rcases pre with _ | ⟨y, pre'⟩
          · rw [List.nil_append] at hsplit
            injection hsplit with h1 h2
            subst h1
            subst h2
            exact Or.inl ⟨rfl, hsuf⟩
          · rw [List.cons_append] at hsplit
            injection hsplit with h1 h2
            subst h1
            refine Or.inr ⟨pre', w, suf, h2, rfl, ?_,
              fun w' hw' => hpre w' (List.mem_cons_of_mem _ hw'), hsuf⟩
            intro prev hp
            rw [← Option.some.inj hp]
            exact hpre x (List.mem_cons_self _ _)
    · by_cases hlt : p.timestamp < x.1
      · have hbs : bestStep (some p) x = some ⟨x.1, x.2⟩ := by
          simp [bestStep, hlt]
        rw [hbs]
        constructor
        · rintro (⟨hdet, hbound⟩ | ⟨pre, w, suf, hsplit, hdet, hb, hpre, hsuf⟩)
          · have hd : det = ⟨x.1, x.2⟩ := (Option.some.inj hdet).symm
            subst hd
            exact Or.inr ⟨[], x, ws, rfl, rfl,
              fun prev hp => by rw [← Option.some.inj hp]; exact hlt, by simp, hbound⟩
          · refine Or.inr ⟨x :: pre, w, suf, by rw [hsplit, List.cons_append], hdet, ?_, ?_, hsuf⟩
            · intro prev hp
              rw [← Option.some.inj hp]
              exact lt_trans hlt (hb ⟨x.1, x.2⟩ rfl)
            · intro w' hw'
              rcases List.mem_cons.mp hw' with h1 | h1
              · rw [h1]
                exact hb ⟨x.1, x.2⟩ rfl
              · exact hpre w' h1
        · rintro (⟨hdet, hbound⟩ | ⟨pre, w, suf, hsplit, hdet, hb, hpre, hsuf⟩)
          · exfalso
            have h1 := hbound x (List.mem_cons_self _ _)
            have h2 := Option.some.inj hdet
            rw [← h2] at h1
            omega
          · subst hdet
            rcases pre with _ | ⟨y, pre'⟩
            · rw [List.nil_append] at hsplit
              injection hsplit with h1 h2
              subst h1
              subst h2
              exact Or.inl ⟨rfl, hsuf⟩
            · rw [List.cons_append] at hsplit
              injection hsplit with h1 h2
              subst h1
              refine Or.inr ⟨pre', w, suf, h2, rfl, ?_,
                fun w' hw' => hpre w' (List.mem_cons_of_mem _ hw'), hsuf⟩
              intro prev hp
              rw [← Option.some.inj hp]
              exact hpre x (List.mem_cons_self _ _)
      · have hbs : bestStep (some p) x = some p := by
          simp [bestStep, hlt]
        rw [hbs]
        constructor
        · rintro (⟨hdet, hbound⟩ | ⟨pre, w, suf, hsplit, hdet, hb, hpre, hsuf⟩)
          · refine Or.inl ⟨hdet, ?_⟩
            intro w' hw'
            rcases List.mem_cons.mp hw' with h1 | h1
            · rw [h1]
              have h2 := Option.some.inj hdet
              rw [← h2]
              omega
            · exact hbound w' h1
          · refine Or.inr ⟨x :: pre, w, suf, by rw [hsplit, List.cons_append], hdet, hb, ?_, hsuf⟩
            intro w' hw'
            rcases List.mem_cons.mp hw' with h1 | h1
            · rw [h1]
              have h3 := hb p rfl
              omega
            · exact hpre w' h1
        · rintro (⟨hdet, hbound⟩ | ⟨pre, w, suf, hsplit, hdet, hb, hpre, hsuf⟩)
          · exact Or.inl ⟨hdet, fun w' hw' => hbound w' (List.mem_cons_of_mem _ hw')⟩
          · rcases pre with _ | ⟨y, pre'⟩
            · rw [List.nil_append] at hsplit
              injection hsplit with h1 h2
              exfalso
              have h3 := hb p rfl
              rw [h1] at hlt
              exact hlt h3
            · rw [List.cons_append] at hsplit
              injection hsplit with h1 h2
              subst h1
              exact Or.inr ⟨pre', w, suf, h2, hdet, hb,
                fun w' hw' => hpre w' (List.mem_cons_of_mem _ hw'), hsuf⟩

/-- C3: when `get_most_recent_completions` succeeds, its entry for a
training name is exactly the first-encountered candidate of maximal parsed
timestamp among the completions with truthy `name` and `timestamp` naming
that training (everything before the winner is strictly older, nothing
after it is strictly newer), and the entry carries exactly the winning
completion's raw `expires` (possibly absent); a training name has no entry
exactly when it has no candidate completion. -/
theorem most_recent_completions_spec (cs : List Completion)
    (r : List (String × MRDetails)) (h : get_most_recent_completions cs = some r)
    (tn : String) :
    (∀ det : MRDetails,
      alookup r tn = some det ↔
        ∃ pre w suf, winnersFor tn cs = pre ++ w :: suf ∧ det = ⟨w.1, w.2⟩
          ∧ (∀ w' ∈ pre, w'.1 < w.1) ∧ (∀ w' ∈ suf, w'.1 ≤ w.1))
    ∧ (alookup r tn = none ↔ winnersFor tn cs = []) := by
  rw [get_most_recent_completions] at h
  have hlk := mrcLoop_alookup cs [] r h tn
  rw [alookup_nil] at hlk
  constructor
  · intro det
    rw [hlk, bestFrom_split]
    constructor
    · rintro (⟨habs, _⟩ | ⟨pre, w, suf, hsplit, hdet, _, hpre, hsuf⟩)
      · exact absurd habs (by simp)
      · exact ⟨pre, w, suf, hsplit, hdet, hpre, hsuf⟩
    · rintro ⟨pre, w, suf, hsplit, hdet, hpre, hsuf⟩
      exact Or.inr ⟨pre, w, suf, hsplit, hdet,
        fun prev hp => absurd hp (by simp), hpre, hsuf⟩
  · rw [hlk]
    exact bestFrom_none_iff (winnersFor tn cs)

theorem bestFrom_eq_of_perm (ws1 ws2 : List (Nat × Option String))
    (hperm : ws1.Perm ws2) (hnd : (ws1.map Prod.fst).Nodup) :
    bestFrom none ws1 = bestFrom none ws2 := by
  rcases hb : bestFrom none ws1 with _ | det
  · rw [bestFrom_none_iff] at hb
    subst hb
    have h2 : ws2 = [] := hperm.symm.eq_nil
    rw [h2]
    rfl
  · have hchar := (bestFrom_split ws1 none det).mp hb
    rcases hchar with ⟨habs, _⟩ | ⟨pre, w, suf, hsplit, hdet, _, hpre, hsuf⟩
    · exact absurd habs (by simp)
    · have hw1 : w ∈ ws1 := by
        rw [hsplit]
        exact List.mem_append_right _ (List.mem_cons_self _ _)
      have hub1 : ∀ w' ∈ ws1, w'.1 ≤ w.1 := by
        intro w' hw'
        rw [hsplit] at hw'
        rcases List.mem_append.mp hw' with h1 | h1
        · exact le_of_lt (hpre w' h1)
        · rcases List.mem_cons.mp h1 with h2 | h2
          · rw [h2]
          · exact hsuf w' h2
      have hw2 : w ∈ ws2 := hperm.mem_iff.mp hw1
      have hub2 : ∀ w' ∈ ws2, w'.1 ≤ w.1 := fun w' hw' =>
        hub1 w' (hperm.mem_iff.mpr hw')
      have hnd2 : (ws2.map Prod.fst).Nodup := ((hperm.map Prod.fst).nodup_iff).mp hnd
      obtain ⟨pre2, suf2, hsplit2⟩ := List.append_of_mem hw2
      have hpre2 : ∀ w' ∈ pre2, w'.1 < w.1 := by
        intro w' hw'
        have hle : w'.1 ≤ w.1 :=
          hub2 w' (by rw [hsplit2]; exact List.mem_append_left _ hw')
        rcases Nat.lt_or_ge w'.1 w.1 with h1 | h1
        · exact h1
        · exfalso
          have heq : w'.1 = w.1 := le_antisymm hle h1
          rw [hsplit2, List.map_append, List.map_cons] at hnd2
          rcases List.nodup_append.mp hnd2 with ⟨_, _, hdisj⟩
          exact hdisj (heq ▸ List.mem_map_of_mem Prod.fst hw') (List.mem_cons_self _ _)
      have hsuf2 : ∀ w' ∈ suf2, w'.1 ≤ w.1 := fun w' hw' =>
        hub2 w' (by rw [hsplit2]; exact List.mem_append_right _ (List.mem_cons_of_mem _ hw'))
      symm
      rw [bestFrom_split]
      exact Or.inr ⟨pre2, w, suf2, hsplit2, hdet,
        fun prev hp => absurd hp (by simp), hpre2, hsuf2⟩

/-- C7: for permuted completion lists in which, per training name, the
candidate completions have pairwise distinct parsed timestamps, the
resolver fails on one list exactly when it fails on the other, and on
success every training name resolves to the same entry: the result depends
only on which completion carries the maximum timestamp, not on list
order. -/
theorem most_recent_perm_invariant (l1 l2 : List Completion) (hperm : l1.Perm l2)
    (hdist : ∀ tn : String, ((winnersFor tn l1).map Prod.fst).Nodup) (tn : String) :
    (get_most_recent_completions l1).map (fun r => alookup r tn)
      = (get_most_recent_completions l2).map (fun r => alookup r tn) := by
  have hfail : get_most_recent_completions l1 = none
      ↔ get_most_recent_completions l2 = none := by
    rw [get_most_recent_completions, get_most_recent_completions,
      mrcLoop_eq_none_iff, mrcLoop_eq_none_iff]
    constructor
    · rintro ⟨c, hc, hp⟩
      exact ⟨c, hperm.mem_iff.mp hc, hp⟩
    · rintro ⟨c, hc, hp⟩
      exact ⟨c, hperm.mem_iff.mpr hc, hp⟩
  rcases h1 : get_most_recent_completions l1 with _ | r1
  · rw [hfail.mp h1]
  · rcases h2 : get_most_recent_completions l2 with _ | r2
    · exact absurd (hfail.mpr h2) (by rw [h1]; simp)
    · simp only [Option.map_some']
      congr 1
      rw [get_most_recent_completions] at h1 h2
      rw [mrcLoop_alookup l1 [] r1 h1 tn, mrcLoop_alookup l2 [] r2 h2 tn]
      simp only [alookup_nil]
      exact bestFrom_eq_of_perm _ _ (hperm.filterMap _) (hdist tn)

/-! Lemmas about `get_expired_or_expiring_trainings`. -/

theorem mrc_success_of_wf {cs : List Completion}
    (hwf : ∀ c ∈ cs, WFCompletion c = true) :
    ∃ r, get_most_recent_completions cs = some r := by
  rcases h : get_most_recent_completions cs with _ | r
  · exfalso
    rw [get_most_recent_completions, mrcLoop_eq_none_iff] at h
    obtain ⟨c, hc, hn, ht, hp⟩ := h
    obtain ⟨s, hts⟩ := truthy_exists ht
    have hc2 := hwf c hc
    rw [WFCompletion, Bool.and_eq_true] at hc2
    have hps : (parseDate s).isSome = true := by
      have h1 := hc2.1
      rw [hts] at h1
      simpa using h1
    rw [hts] at hp
    simp only [Option.getD_some] at hp
    rw [hp] at hps
    simp at hps
  · exact ⟨r, rfl⟩

theorem mrcLoop_mem_expires :
    ∀ (cs : List Completion) (acc r : List (String × MRDetails)),
      mrcLoop acc cs = some r →
      ∀ p ∈ r, p ∈ acc ∨ ∃ c ∈ cs, p.2.expires = c.expires := by
  intro cs
  induction cs with
  | nil =>
    intro acc r h p hp
    have hacc : acc = r := Option.some.inj h
    subst hacc
    exact Or.inl hp
  | cons c rest ih =>
    intro acc r h p hp
    simp only [mrcLoop] at h
    by_cases hcond : truthy c.name = true ∧ truthy c.timestamp = true
    · rw [if_pos hcond] at h
      obtain ⟨s, hts⟩ := truthy_exists hcond.2
      simp only [hts, Option.getD_some] at h
      rcases hpd : parseDate s with _ | d
      · simp only [hpd] at h
        exact absurd h (by simp)
      · simp only [hpd] at h
        obtain ⟨nm, hcn⟩ := truthy_exists hcond.1
        simp only [hcn, Option.getD_some] at h
        have lift : (p ∈ mrUpdate acc nm ⟨d, c.expires⟩
              ∨ ∃ c' ∈ rest, p.2.expires = c'.expires)
            → p ∈ acc ∨ ∃ c' ∈ c :: rest, p.2.expires = c'.expires := by
          rintro (h1 | ⟨c', hc', he⟩)
          · rcases mem_mrUpdate h1 with h2 | h2
            · right
              refine ⟨c, List.mem_cons_self _ _, ?_⟩
              subst h2
              rfl
            · exact Or.inl h2
          · exact Or.inr ⟨c', List.mem_cons_of_mem _ hc', he⟩
        rcases hl : alookup acc nm with _ | prev
        · simp only [hl] at h
          rcases ih _ r h p hp with h1 | h1
          · exact lift (Or.inl h1)
          · exact lift (Or.inr h1)
        · simp only [hl] at h
          by_cases hlt : prev.timestamp < d
          · rw [if_pos hlt] at h
            rcases ih _ r h p hp with h1 | h1
            · exact lift (Or.inl h1)
            · exact lift (Or.inr h1)
          · rw [if_neg hlt] at h
            rcases ih _ r h p hp with h1 | ⟨c', hc', he⟩
            · exact Or.inl h1
            · exact Or.inr ⟨c', List.mem_cons_of_mem _ hc', he⟩
    · rw [if_neg hcond] at h
      rcases ih _ r h p hp with h1 | ⟨c', hc', he⟩
      · exact Or.inl h1
      · exact Or.inr ⟨c', List.mem_cons_of_mem _ hc', he⟩

theorem expiryLoop_spec (ref : Nat) :
    ∀ (mr : List (String × MRDetails)) (acc : List TrainingStatus),
      (∀ p ∈ mr, ∀ es, p.2.expires = some es → (parseDate es).isSome = true) →
      expiryLoop ref acc mr = some (acc ++ flaggedSpec ref mr) := by
  intro mr
  induction mr with
  | nil =>
    intro acc _
    simp [expiryLoop, flaggedSpec]
  | cons q rest ih =>
    obtain ⟨tn, details⟩ := q
    intro acc hwf
    have hrest := fun q' hq' => hwf q' (List.mem_cons_of_mem _ hq')
    simp only [expiryLoop]
    rcases hes : details.expires with _ | es
    · rw [if_neg (by simp [truthy])]
      rw [ih acc hrest]
      simp [flaggedSpec, List.filterMap_cons, hes]
    · have hps : (parseDate es).isSome = true :=
        hwf (tn, details) (List.mem_cons_self _ _) es hes
      obtain ⟨e, hpe⟩ := Option.isSome_iff_exists.mp hps
      have htr : truthy (some es) = true := truthy_of_parse hpe
      rw [if_pos htr]
      simp only [Option.getD_some, hpe]
      by_cases h1 : ref > e
      · rw [if_pos h1]
        rw [ih _ hrest]
        simp [flaggedSpec, List.filterMap_cons, hes, hpe, h1, List.append_assoc]
      · rw [if_neg h1]
        by_cases h2 : e ≤ ref + 30
        · rw [if_pos h2]
          rw [ih _ hrest]
          simp [flaggedSpec, List.filterMap_cons, hes, hpe, h1, h2, List.append_assoc]
        · rw [if_neg h2]
          rw [ih _ hrest]
          simp [flaggedSpec, List.filterMap_cons, hes, hpe, h1, h2]

theorem reportLoop_spec (ref : Nat) :
    ∀ (data : List Person) (acc : List PersonResult),
      (∀ p ∈ data, WFPerson p = true) →
      reportLoop ref acc data = some (acc ++ reportSpec ref data) := by
  intro data
  induction data with
  | nil =>
    intro acc _
    simp [reportLoop, reportSpec]
  | cons p rest ih =>
    intro acc hwf
    have hwfp := hwf p (List.mem_cons_self _ _)
    rw [WFPerson, Bool.and_eq_true, List.all_eq_true] at hwfp
    have hrest := fun q hq => hwf q (List.mem_cons_of_mem _ hq)
    obtain ⟨r, hr⟩ := mrc_success_of_wf hwfp.2
    have hexp : ∀ q ∈ r, ∀ es, q.2.expires = some es → (parseDate es).isSome = true := by
      intro q hq es hes
      rcases mrcLoop_mem_expires _ [] r hr q hq with h1 | ⟨c, hc, he⟩
      · simp at h1
      · have hc2 := hwfp.2 c hc
        rw [WFCompletion, Bool.and_eq_true] at hc2
        have h2 := hc2.2
        rw [he] at hes
        rw [hes] at h2
        simpa using h2
    have hEL := expiryLoop_spec ref r [] hexp
    rw [List.nil_append] at hEL
    simp only [reportLoop, hr, hEL]
    by_cases hfl : (flaggedSpec ref r).isEmpty = true
    · have hnil : flaggedSpec ref r = [] := by simpa using hfl
      rw [if_pos hfl]
      rw [ih acc hrest]
      simp [reportSpec, List.filterMap_cons, hr, hnil]
    · have hnil : ¬(flaggedSpec ref r = []) := by simpa using hfl
      rw [if_neg hfl]
      obtain ⟨pn, hpn⟩ := Option.isSome_iff_exists.mp hwfp.1
      simp only [hpn]
      rw [ih _ hrest]
      simp [reportSpec, List.filterMap_cons, hr, hnil, hpn, List.append_assoc]

/-- C1: on a well-formed dataset (person names present, present date
strings parse), `get_expired_or_expiring_trainings` follows the specified
algorithm: per person it resolves the most-recent completion per training
via `get_most_recent_completions`, skips trainings whose resolved
`expires` is absent, assigns `"expired"` / `"expires soon"` by the ordered
boundary checks, accumulates the `{training, status}` entries in resolver
order, and emits `{name, trainings}` for a person, in input iteration
order, exactly when at least one training was flagged. -/
theorem expiry_report_follows_spec (data : List Person) (ref : Nat)
    (hwf : WFData data = true) :
    get_expired_or_expiring_trainings data ref = some (reportSpec ref data) := by
  rw [WFData, List.all_eq_true] at hwf
  rw [get_expired_or_expiring_trainings, reportLoop_spec ref data [] hwf]
  rw [List.nil_append]

/-! String helpers for stating concrete instances. -/

theorem eq_empty_of_data_nil {s : String} (h : s.data = []) : s = "" := by
  cases s with
  | mk l =>
    simp at h
    rw [h]

theorem truthy_some_of_ne {s : String} (h : s ≠ "") : truthy (some s) = true := by
  rw [truthy_some_iff]
  intro hd
  exact h (eq_empty_of_data_nil hd)

/-- C5: in `get_expired_or_expiring_trainings`, for a most-recent
completion with a present, parseable expiry: an expiry exactly 30 days
after the reference date is reported `"expires soon"`; 31 days after
yields no entry, so the person is omitted; an expiry equal to the
reference date is `"expires soon"`, not `"expired"`; an expiry one day
before the reference date is `"expired"`. -/
theorem expiry_boundaries (ref e t : Nat) (tn pn ts es : String)
    (htn : tn ≠ "") (hts : parseDate ts = some t) (hes : parseDate es = some e) :
    (e = ref + 30 →
      get_expired_or_expiring_trainings
          [⟨some pn, some [⟨some tn, some ts, some es⟩]⟩] ref
        = some [⟨pn, [⟨tn, "expires soon"⟩]⟩])
    ∧ (e = ref + 31 →
      get_expired_or_expiring_trainings
          [⟨some pn, some [⟨some tn, some ts, some es⟩]⟩] ref
        = some [])
    ∧ (e = ref →
      get_expired_or_expiring_trainings
          [⟨some pn, some [⟨some tn, some ts, some es⟩]⟩] ref
        = some [⟨pn, [⟨tn, "expires soon"⟩]⟩])
    ∧ (e + 1 = ref →
      get_expired_or_expiring_trainings
          [⟨some pn, some [⟨some tn, some ts, some es⟩]⟩] ref
        = some [⟨pn, [⟨tn, "expired"⟩]⟩]) := by
  have htrn : truthy (some tn) = true := truthy_some_of_ne htn
  have htts : truthy (some ts) = true := truthy_of_parse hts
  have htes : truthy (some es) = true := truthy_of_parse hes
  have hres : get_most_recent_completions [⟨some tn, some ts, some es⟩]
      = some [(tn, ⟨t, some es⟩)] := by
    rw [get_most_recent_completions]
    simp [mrcLoop, htrn, htts, hts, mrUpdate]
  refine ⟨?_, ?_, ?_, ?_⟩
  · intro he
    subst he
    have h1 : ¬(ref > ref + 30) := by omega
    have h2 : ref + 30 ≤ ref + 30 := le_refl _
    simp [get_expired_or_expiring_trainings, reportLoop, hres, expiryLoop, htes,
      hes, h1, h2]
  · intro he
    subst he
    have h1 : ¬(ref > ref + 31) := by omega
    have h2 : ¬(ref + 31 ≤ ref + 30) := by omega
    simp [get_expired_or_expiring_trainings, reportLoop, hres, expiryLoop, htes,
      hes, h1, h2]
  · intro he
    subst he
    have h1 : ¬(e > e) := by omega
    have h2 : e ≤ e + 30 := by omega
    simp [get_expired_or_expiring_trainings, reportLoop, hres, expiryLoop, htes,
      hes, h1, h2]
  · intro he
    subst he
    have h1 : e + 1 > e := by omega
    simp [get_expired_or_expiring_trainings, reportLoop, hres, expiryLoop, htes,
      hes, h1]

/-! Append and skip lemmas for C10. -/

theorem countLoopP_append (l1 l2 : List Person) :
    ∀ acc, countLoopP acc (l1 ++ l2) = countLoopP (countLoopP acc l1) l2 := by
  induction l1 with
  | nil => intro acc; rfl
  | cons p rest ih =>
    intro acc
    simp only [List.cons_append, countLoopP]
    exact ih _

theorem fycLoopP_append (fs fe : Nat) (l1 l2 : List Person) :
    ∀ acc, fycLoopP fs fe acc (l1 ++ l2)
      = match fycLoopP fs fe acc l1 with
        | none => none
        | some a => fycLoopP fs fe a l2 := by
  induction l1 with
  | nil => intro acc; rfl
  | cons p rest ih =>
    intro acc
    simp only [List.cons_append, fycLoopP]
    rcases fycLoopC fs fe p.name acc (p.completions.getD []) with _ | a
    · rfl
    · exact ih _

theorem reportLoop_append (ref : Nat) (l1 l2 : List Person) :
    ∀ acc, reportLoop ref acc (l1 ++ l2)
      = match reportLoop ref acc l1 with
        | none => none
        | some a => reportLoop ref a l2 := by
  induction l1 with
  | nil => intro acc; rfl
  | cons p rest ih =>
    intro acc
    simp only [List.cons_append, reportLoop]
    rcases get_most_recent_completions (p.completions.getD []) with _ | mr
    · rfl
    · dsimp only
      rcases expiryLoop ref [] mr with _ | flagged
      · rfl
      · dsimp only
        by_cases hfl : flagged.isEmpty = true
        · rw [if_pos hfl, if_pos hfl]
          exact ih _
        · rw [if_neg hfl, if_neg hfl]
          rcases p.name with _ | pn
          · rfl
          · dsimp only
            exact ih _

theorem countLoopP_skip {p : Person} (h : p.completions.getD [] = []) (l : List Person) (acc : List (String × Nat)) :
    countLoopP acc (p :: l) = countLoopP acc l := by
  rw [countLoopP, h]
  rfl

theorem fycLoopP_skip {p : Person} (h : p.completions.getD [] = []) :
    ∀ (fs fe : Nat) (acc : List (String × List String)) (l : List Person),
      fycLoopP fs fe acc (p :: l) = fycLoopP fs fe acc l := by
  intro fs fe acc l
  rw [fycLoopP, h]
  rfl

theorem reportLoop_skip {p : Person} (h : p.completions.getD [] = []) :
    ∀ (ref : Nat) (acc : List PersonResult) (l : List Person),
      reportLoop ref acc (p :: l) = reportLoop ref acc l := by
  intro ref acc l
  rw [reportLoop, h]
  rfl

/-- C10: every report function treats a person with no `completions` field
as having an empty completion list: replacing the absent field by an
explicit empty list leaves each output unchanged, and such a person
contributes nothing (the dataset behaves as if the person were absent)
and causes no error. -/
theorem absent_completions_as_empty (pre post : List Person) (p : Person)
    (hp : p.completions = none) (trainings : List String) (fiscal_year ref : Nat) :
    (get_training_count (pre ++ p :: post)
        = get_training_count (pre ++ ⟨p.name, some []⟩ :: post)
      ∧ get_training_count (pre ++ p :: post) = get_training_count (pre ++ post))
    ∧ (get_completed_trainings (pre ++ p :: post) trainings fiscal_year
        = get_completed_trainings (pre ++ ⟨p.name, some []⟩ :: post) trainings fiscal_year
      ∧ get_completed_trainings (pre ++ p :: post) trainings fiscal_year
        = get_completed_trainings (pre ++ post) trainings fiscal_year)
    ∧ (get_expired_or_expiring_trainings (pre ++ p :: post) ref
        = get_expired_or_expiring_trainings (pre ++ ⟨p.name, some []⟩ :: post) ref
      ∧ get_expired_or_expiring_trainings (pre ++ p :: post) ref
        = get_expired_or_expiring_trainings (pre ++ post) ref) := by
  have h1 : p.completions.getD [] = [] := by rw [hp]; rfl
  have h2 : (Person.mk p.name (some [])).completions.getD [] = [] := rfl
  refine ⟨⟨?_, ?_⟩, ⟨?_, ?_⟩, ⟨?_, ?_⟩⟩
  · rw [get_training_count, get_training_count, countLoopP_append, countLoopP_append,
      countLoopP_skip h1, countLoopP_skip h2]
  · rw [get_training_count, get_training_count, countLoopP_append, countLoopP_append,
      countLoopP_skip h1]
  · rw [get_completed_trainings, get_completed_trainings]
    by_cases hg : fiscal_year < 2 ∨ 9999 < fiscal_year
    · rw [if_pos hg, if_pos hg]
    · rw [if_neg hg, if_neg hg, fycLoopP_append, fycLoopP_append]
      simp only [fycLoopP_skip h1, fycLoopP_skip h2]
  · rw [get_completed_trainings, get_completed_trainings]
    by_cases hg : fiscal_year < 2 ∨ 9999 < fiscal_year
    · rw [if_pos hg, if_pos hg]
    · rw [if_neg hg, if_neg hg, fycLoopP_append, fycLoopP_append]
      simp only [fycLoopP_skip h1]
  · rw [get_expired_or_expiring_trainings, get_expired_or_expiring_trainings,
      reportLoop_append, reportLoop_append]
    simp only [reportLoop_skip h1, reportLoop_skip h2]
  · rw [get_expired_or_expiring_trainings, get_expired_or_expiring_trainings,
      reportLoop_append, reportLoop_append]
    simp only [reportLoop_skip h1]

/-- C8 counterexample: a present, malformed (unparseable) empty-string
date does not abort any report function: a completion whose `timestamp` is
the empty string is silently skipped by the resolver (so the expiry
reporter returns an empty report), skipped by the fiscal-year filter (so
the requested training keeps its empty list), and an empty-string
`expires` on a winning completion is skipped by the expiry reporter. -/
theorem malformed_empty_date_not_fatal :
    parseDate "" = none
    ∧ get_expired_or_expiring_trainings
        [⟨some "P", some [⟨some "T", some "", some "01/01/2020"⟩]⟩] 738885 = some []
    ∧ get_completed_trainings
        [⟨some "P", some [⟨some "T", some "", none⟩]⟩] ["T"] 2024 = some [("T", [])]
    ∧ get_expired_or_expiring_trainings
        [⟨some "P", some [⟨some "T", some "01/01/2020", some ""⟩]⟩] 738885 = some [] := by
  refine ⟨by decide, by decide, by decide, by decide⟩

/-- C8 (amended): a present, non-empty date string that does not parse as
`MM/DD/YYYY` is fatal wherever it is actually parsed: as the timestamp of
a requested training in the fiscal-year filter, as the timestamp of a
completion with truthy name and timestamp reaching the resolver inside the
expiry reporter, and as the expiry of a winning completion in the expiry
reporter; the report function returns no output at all. -/
theorem malformed_date_fatal (s : String) (hne : s ≠ "") (hbad : parseDate s = none) :
    get_completed_trainings [⟨some "P", some [⟨some "T", some s, none⟩]⟩] ["T"] 2024 = none
    ∧ get_expired_or_expiring_trainings
        [⟨some "P", some [⟨some "T", some s, none⟩]⟩] 738885 = none
    ∧ get_expired_or_expiring_trainings
        [⟨some "P", some [⟨some "T", some "01/01/2024", some s⟩]⟩] 738885 = none := by
  have htr : truthy (some s) = true := truthy_some_of_ne hne
  have hT : truthy (some "T") = true := by decide
  have hT2 : truthy (some "01/01/2024") = true := by decide
  have hP : parseDate "01/01/2024" = some 738886 := by decide
  refine ⟨?_, ?_, ?_⟩
  · rw [get_completed_trainings, if_neg (by omega)]
    simp [dedupFirst, dedupFirstAux, fycLoopP, fycLoopC, requestedName, alookup,
      htr, hbad]
  · rw [get_expired_or_expiring_trainings]
    simp [reportLoop, get_most_recent_completions, mrcLoop, hT, htr, hbad]
  · rw [get_expired_or_expiring_trainings]
    simp [reportLoop, get_most_recent_completions, mrcLoop, hT, hT2, hP, expiryLoop,
      htr, hbad, mrUpdate]

/-- C9 counterexample: `get_completed_trainings` is not the only report
function requiring the person `name`: `get_expired_or_expiring_trainings`
also reads `person['name']` unguarded (source line 137), so it fails on a
person with a missing `name` and a flagged training, while the same
dataset with the name present succeeds. -/
theorem reporter_missing_name_fatal :
    get_expired_or_expiring_trainings
        [⟨none, some [⟨some "T", some "01/01/2021", some "01/01/2022"⟩]⟩]
        (toOrdinal 2023 10 1) = none
    ∧ get_expired_or_expiring_trainings
        [⟨some "P", some [⟨some "T", some "01/01/2021", some "01/01/2022"⟩]⟩]
        (toOrdinal 2023 10 1) = some [⟨"P", [⟨"T", "expired"⟩]⟩] := by
  refine ⟨by decide, by decide⟩

/-- C9 (amended): the person `name` is required by both functions that
output it — the fiscal-year filter fails on a missing name exactly when
the person has a qualifying completion, and the expiry reporter fails on a
missing name exactly when the person has a flagged training — while
`get_training_count` never reads person names at all (erasing every name
leaves its output unchanged). -/
theorem missing_name_requirements :
    (∀ data : List Person,
      get_training_count data
        = get_training_count (data.map (fun p => ⟨none, p.completions⟩)))
    ∧ (∀ (tn ts : String) (fiscal_year d : Nat), 2 ≤ fiscal_year → fiscal_year ≤ 9999 →
        parseDate ts = some d → toOrdinal (fiscal_year - 1) 7 1 ≤ d →
        d ≤ toOrdinal fiscal_year 6 30 →
        get_completed_trainings [⟨none, some [⟨some tn, some ts, none⟩]⟩] [tn] fiscal_year
          = none)
    ∧ (∀ (tn ts es : String) (t e ref : Nat), tn ≠ "" → parseDate ts = some t →
        parseDate es = some e → e ≤ ref + 30 →
        get_expired_or_expiring_trainings [⟨none, some [⟨some tn, some ts, some es⟩]⟩] ref
          = none) := by
  refine ⟨?_, ?_, ?_⟩
  · intro data
    rw [get_training_count, get_training_count]
    suffices h : ∀ (l : List Person) (acc : List (String × Nat)),
        countLoopP acc l = countLoopP acc (l.map fun p => ⟨none, p.completions⟩) by
      exact h data []
    intro l
    induction l with
    | nil => intro acc; rfl
    | cons p rest ih =>
      intro acc
      simp only [List.map_cons, countLoopP]
      exact ih _
  · intro tn ts fiscal_year d hlo hhi hpd hw1 hw2
    have htts : truthy (some ts) = true := truthy_of_parse hpd
    rw [get_completed_trainings, if_neg (by omega)]
    simp [dedupFirst, dedupFirstAux, fycLoopP, fycLoopC, requestedName, alookup,
      htts, hpd, hw1, hw2]
  · intro tn ts es t e ref htn hpt hpe hflag
    have htrn : truthy (some tn) = true := truthy_some_of_ne htn
    have htts : truthy (some ts) = true := truthy_of_parse hpt
    have htes : truthy (some es) = true := truthy_of_parse hpe
    have hres : get_most_recent_completions [⟨some tn, some ts, some es⟩]
        = some [(tn, ⟨t, some es⟩)] := by
      rw [get_most_recent_completions]
      simp [mrcLoop, htrn, htts, hpt, mrUpdate]
    rw [get_expired_or_expiring_trainings]
    by_cases h1 : ref > e
    · simp [reportLoop, hres, expiryLoop, htes, hpe, h1]
    · simp [reportLoop, hres, expiryLoop, htes, hpe, h1, hflag]

/-! Concrete witnesses instantiating the hypothesis-bearing theorems. -/

theorem expiry_report_follows_spec_witness :
    WFData [⟨some "Alice", some [⟨some "X-Ray Safety", some "01/15/2024", some "01/15/2025"⟩]⟩] = true
    ∧ get_expired_or_expiring_trainings
        [⟨some "Alice", some [⟨some "X-Ray Safety", some "01/15/2024", some "01/15/2025"⟩]⟩]
        (toOrdinal 2025 1 1)
      = some (reportSpec (toOrdinal 2025 1 1)
          [⟨some "Alice", some [⟨some "X-Ray Safety", some "01/15/2024", some "01/15/2025"⟩]⟩]) :=
  ⟨by decide, expiry_report_follows_spec _ _ (by decide)⟩

theorem completed_trainings_spec_witness :
    (["Lab Safety", "X-Ray Safety"] : List String).Nodup
    ∧ WFData [⟨some "A", some [⟨some "Lab Safety", some "08/15/2023", none⟩]⟩] = true
    ∧ get_completed_trainings
        [⟨some "A", some [⟨some "Lab Safety", some "08/15/2023", none⟩]⟩]
        ["Lab Safety", "X-Ray Safety"] 2024
      = some ((["Lab Safety", "X-Ray Safety"] : List String).map (fun t =>
          (t, completedFor (toOrdinal (2024 - 1) 7 1) (toOrdinal 2024 6 30) t
                [⟨some "A", some [⟨some "Lab Safety", some "08/15/2023", none⟩]⟩]))) :=
  ⟨by decide, by decide,
    completed_trainings_spec _ _ _ (by decide) (by decide) (by decide) (by decide)⟩

theorem most_recent_completions_spec_witness :
    get_most_recent_completions
        [⟨some "T", some "01/02/2024", some "03/01/2024"⟩,
         ⟨some "T", some "01/01/2024", none⟩]
      = some [("T", ⟨toOrdinal 2024 1 2, some "03/01/2024"⟩)]
    ∧ (alookup [("T", (⟨toOrdinal 2024 1 2, some "03/01/2024"⟩ : MRDetails))] "X" = none
        ↔ winnersFor "X"
            [⟨some "T", some "01/02/2024", some "03/01/2024"⟩,
             ⟨some "T", some "01/01/2024", none⟩] = []) :=
  ⟨by decide, (most_recent_completions_spec _ _ (by decide) "X").2⟩

theorem expiry_boundaries_witness :
    parseDate "01/15/2023" = some (toOrdinal 2023 1 15)
    ∧ parseDate "10/31/2023" = some (toOrdinal 2023 10 31)
    ∧ toOrdinal 2023 10 31 = toOrdinal 2023 10 1 + 30
    ∧ get_expired_or_expiring_trainings
        [⟨some "P", some [⟨some "Safety", some "01/15/2023", some "10/31/2023"⟩]⟩]
        (toOrdinal 2023 10 1)
      = some [⟨"P", [⟨"Safety", "expires soon"⟩]⟩] :=
  ⟨by decide, by decide, by decide,
    (expiry_boundaries (toOrdinal 2023 10 1) (toOrdinal 2023 10 31) (toOrdinal 2023 1 15)
      "Safety" "P" "01/15/2023" "10/31/2023" (by decide) (by decide) (by decide)).1
      (by decide)⟩

theorem completed_trainings_no_dedup_witness :
    parseDate "01/15/2024" = some (toOrdinal 2024 1 15)
    ∧ (toOrdinal (2024 - 1) 7 1 ≤ toOrdinal 2024 1 15
        ∧ toOrdinal 2024 1 15 ≤ toOrdinal 2024 6 30)
    ∧ get_completed_trainings
        [⟨some "Bob", some (List.replicate 2 ⟨some "Lab", some "01/15/2024", none⟩)⟩]
        ["Lab"] 2024
      = some [("Lab", List.replicate 2 "Bob")] :=
  ⟨by decide, by decide,
    completed_trainings_no_dedup 2 "Bob" "Lab" "01/15/2024" 2024 (toOrdinal 2024 1 15)
      (by decide) (by decide) (by decide) (by decide)⟩

theorem most_recent_perm_invariant_witness :
    List.Perm
        [(⟨some "T", some "01/02/2024", none⟩ : Completion),
         ⟨some "T", some "01/01/2024", some "05/05/2024"⟩]
        [⟨some "T", some "01/01/2024", some "05/05/2024"⟩,
         ⟨some "T", some "01/02/2024", none⟩]
    ∧ (get_most_recent_completions
          [⟨some "T", some "01/02/2024", none⟩,
           ⟨some "T", some "01/01/2024", some "05/05/2024"⟩]).map (fun r => alookup r "T")
      = (get_most_recent_completions
          [⟨some "T", some "01/01/2024", some "05/05/2024"⟩,
           ⟨some "T", some "01/02/2024", none⟩]).map (fun r => alookup r "T") :=
  ⟨by decide,
    most_recent_perm_invariant _ _ (by decide)
      (fun tn => by
        by_cases h : tn = "T"
        · subst h
          decide
        · simp [winnersFor, List.filterMap_cons, h, Ne.symm h])
      "T"⟩

theorem malformed_date_fatal_witness :
    ("13/45/2024" : String) ≠ ""
    ∧ parseDate "13/45/2024" = none
    ∧ get_completed_trainings
        [⟨some "P", some [⟨some "T", some "13/45/2024", none⟩]⟩] ["T"] 2024 = none :=
  ⟨by decide, by decide, (malformed_date_fatal "13/45/2024" (by decide) (by decide)).1⟩

theorem missing_name_requirements_witness :
    parseDate "01/15/2024" = some (toOrdinal 2024 1 15)
    ∧ get_completed_trainings
        [⟨none, some [⟨some "Lab", some "01/15/2024", none⟩]⟩] ["Lab"] 2024 = none :=
  ⟨by decide,
    missing_name_requirements.2.1 "Lab" "01/15/2024" 2024 (toOrdinal 2024 1 15)
      (by decide) (by decide) (by decide) (by decide) (by decide)⟩

theorem absent_completions_as_empty_witness :
    (⟨some "A", none⟩ : Person).completions = none
    ∧ get_training_count
        ([] ++ (⟨some "A", none⟩ : Person)
          :: [⟨some "B", some [⟨some "T", some "01/01/2024", none⟩]⟩])
      = get_training_count ([] ++ [⟨some "B", some [⟨some "T", some "01/01/2024", none⟩]⟩]) :=
  ⟨rfl,
    (absent_completions_as_empty []
      [⟨some "B", some [⟨some "T", some "01/01/2024", none⟩]⟩]
      ⟨some "A", none⟩ rfl [] 2024 700000).1.2⟩

end Trainings
